import Mathlib

/-!
Verification of the Arachnida spider core (src/arachnida-web/spider.cpp and
spider.c) against its natural-language specification.

Strings are shallowly embedded as lists of characters (`Str`), mirroring
`std::string` / C character buffers.  Every definition in the `Arachnida`
namespace is a direct translation of the function of the same name in the
source; the `spec`-prefixed definitions transcribe the specification's own
wording and are used only to compare against the code-derived definitions.
The C++ file is taken as the canonical implementation (the spec calls for one
canonical core); the C file differs only where noted, and its HTML attribute
extractor `extract_tag_attrs` is embedded separately for the equivalence
claim about the two extractors.
-/

namespace Arachnida

/-- Character-list strings, the shallow embedding of `std::string`. -/
abbrev Str := List Char

/-- Conversion from Lean string literals. -/
def lit (s : String) : Str := s.toList

/-- The double-quote character. -/
def dq : Char := Char.ofNat 34

/-- The single-quote character. -/
def sq : Char := Char.ofNat 39

/-- C `isspace` in the C locale: space, tab, newline, vertical tab,
form feed, carriage return. -/
def isWs (c : Char) : Bool :=
  c = ' ' || c = '\t' || c = '\n' || c = Char.ofNat 11 || c = Char.ofNat 12 || c = '\r'

/-- `to_lower` from spider.cpp: lowercase every character
(`std::tolower` in the C locale, i.e. ASCII). -/
def to_lower (s : Str) : Str := s.map Char.toLower

/-- `starts_with` from spider.cpp: `s.rfind(pref, 0) == 0`, i.e. prefix test. -/
def starts_with : Str → Str → Bool
  | _, [] => true
  | [], _ :: _ => false
  | c :: s, p :: ps => decide (c = p) && starts_with s ps

/-- `trim` from spider.cpp: remove leading and trailing `isspace` characters. -/
def trim (s : Str) : Str :=
  ((s.dropWhile isWs).reverse.dropWhile isWs).reverse

/-- `ends_with` as used by `is_image_url` in spider.cpp:
`u.compare(u.size()-e.size(), e.size(), e) == 0` guarded by a size check. -/
def ends_with (s e : Str) : Bool :=
  decide (e.length ≤ s.length) && decide (s.drop (s.length - e.length) = e)

/-! ## URL parsing and joining -/

/-- `UrlParts` from the source (the spec's `ParsedURL`):
scheme (`http`/`https`, lower-cased), host, path. -/
structure UrlParts where
  scheme : Str
  host : Str
  path : Str
deriving DecidableEq, Repr

/-- Host-and-path part of `parse_url`: the host is the maximal nonempty run
of non-`/` characters (the regex's `([^/]+)`), the rest is the path
(`(/.*)?`, defaulting to `/` when absent). -/
def parse_hostpath (scheme : Str) (r : Str) : Option UrlParts :=
  let host := r.takeWhile (fun c => decide (c ≠ '/'))
  if host = [] then none
  else
    let p := r.drop host.length
    some { scheme := scheme, host := host, path := if p = [] then lit "/" else p }

/-- `parse_url` from spider.cpp: match
`^\s*(https?)://([^/]+)(/.*)?\s*$` case-insensitively; the scheme is
lower-cased, the path defaults to `/`.  The regex's surrounding `\s*`
anchors are modelled by trimming the input. -/
def parse_url (url : Str) : Option UrlParts :=
  let s := trim url
  let sl := to_lower s
  if starts_with sl (lit "http://") then parse_hostpath (lit "http") (s.drop 7)
  else if starts_with sl (lit "https://") then parse_hostpath (lit "https") (s.drop 8)
  else none

/-- `strip_qf` from spider.c / the `find_first_of("?#")` truncation in
spider.cpp: cut the string at the first `?` or `#`. -/
def strip_qf (s : Str) : Str :=
  s.takeWhile (fun c => decide (c ≠ '?') && decide (c ≠ '#'))

/-- The text after the last `/` of a string (the whole string when no `/`
occurs); used to embed `find_last_of('/')` + `substr`. -/
def after_last_slash : Str → Str
  | [] => []
  | c :: rest =>
    if ('/' : Char) ∈ rest then after_last_slash rest
    else if c = '/' then rest
    else c :: after_last_slash rest

/-- Everything up to and including the last `/`
(`substr(0, slash + 1)` in spider.cpp). -/
def through_last_slash (s : Str) : Str :=
  s.take (s.length - (after_last_slash s).length)

/-- `url_base_dir` from spider.cpp: the base directory of `base.path`
(query/fragment stripped): the path itself if it ends in `/`, else everything
through the last `/`, else `/`. -/
def url_base_dir (base : UrlParts) : Str :=
  let path := base.path
  if path = [] then lit "/"
  else
    let p := strip_qf path
    if p.getLast? = some '/' then p
    else if ('/' : Char) ∈ p then through_last_slash p
    else lit "/"

/-- `normalize_url` from spider.cpp: trim surrounding whitespace. -/
def normalize_url (s : Str) : Str := trim s

/-- The segment-splitting loop of `join_url` in spider.cpp: walk the
characters, pushing the accumulated segment at each `/` (empty segments are
dropped), and push the final segment if nonempty. -/
def split_segs : Str → Str → List Str → List Str
  | [], tmp, parts => if tmp = [] then parts else parts ++ [tmp]
  | c :: rest, tmp, parts =>
    if c = '/' then
      if tmp = [] then split_segs rest [] parts
      else split_segs rest [] (parts ++ [tmp])
    else split_segs rest (tmp ++ [c]) parts

/-- The `.`/`..` normalization step shared by spider.cpp's `join_url` loop
and spider.c's `normalize_rel_path`: skip `.` and empty segments, pop the
last retained segment on `..` (a no-op at the root), push anything else. -/
def norm_step (acc : List Str) (seg : Str) : List Str :=
  if seg = lit "." ∨ seg = [] then acc
  else if seg = lit ".." then acc.dropLast
  else acc ++ [seg]

/-- `join_url` from spider.cpp (`resolve` in the spec).  Returns `[]`
(the empty string) for a skipped, non-navigable reference. -/
def join_url (base : UrlParts) (href : Str) : Str :=
  let h := normalize_url href
  if h = [] then []
  else
    let hl := to_lower h
    if starts_with hl (lit "javascript:") || starts_with hl (lit "mailto:") then []
    else if h.head? = some '#' then []
    else if starts_with hl (lit "http://") || starts_with hl (lit "https://") then h
    else if starts_with h (lit "//") then base.scheme ++ [':'] ++ h
    else if starts_with h (lit "/") then base.scheme ++ lit "://" ++ base.host ++ h
    else
      let dir := url_base_dir base
      let combined := dir ++ h
      let norm := (split_segs combined [] []).foldl norm_step []
      base.scheme ++ lit "://" ++ base.host ++ (['/'] ++ List.intercalate (lit "/") norm)

/-! ## Specification-side path normalization (spec section 4.1) -/

/-- Split a string on `/`, keeping empty segments — the specification's
"split the concatenated path on `/`". -/
def splitOnSlash : Str → List Str
  | [] => [[]]
  | c :: rest =>
    if c = '/' then [] :: splitOnSlash rest
    else
      match splitOnSlash rest with
      | seg :: segs => (c :: seg) :: segs
      | [] => [[c]]

/-- Path normalization transcribed from the specification's wording:
split on `/`; drop empty and `.` segments; `..` pops the last retained
segment if one exists; rejoin with `/`, prefixed by a leading `/` (an empty
result therefore normalizes to `/`). -/
def specNormalize (p : Str) : Str :=
  ['/'] ++ List.intercalate (lit "/") ((splitOnSlash p).foldl norm_step [])

/-! ## Image classifier and namer -/

/-- The image extension whitelist of `is_image_url`. -/
def image_exts : List Str :=
  [lit ".jpg", lit ".jpeg", lit ".png", lit ".gif", lit ".bmp"]

/-- `is_image_url` from spider.cpp: lowercase, strip `?`/`#` suffix, test the
extension whitelist. -/
def is_image_url (url : Str) : Bool :=
  let u := strip_qf (to_lower url)
  image_exts.any (fun e => ends_with u e)

/-- `safe_filename` from spider.c (the sanitizing loop of
`filename_from_url` in spider.cpp): every character that is not
alphanumeric, `.`, `_` or `-` becomes `_`. -/
def safe_filename (s : Str) : Str :=
  s.map (fun c => if c.isAlphanum || c = '.' || c = '_' || c = '-' then c else '_')

/-- `filename_from_url` from spider.cpp: strip `?`/`#`; if there is no `/`
or nothing follows the last `/`, fall back to `image.bin`; otherwise
sanitize the text after the last `/`. -/
def filename_from_url (url : Str) : Str :=
  let u := strip_qf url
  if ('/' : Char) ∈ u then
    let name := after_last_slash u
    if name = [] then lit "image.bin" else safe_filename name
  else lit "image.bin"

/-- `deriveFilename` transcribed from the specification's wording:
strip `?`/`#` suffix; take the text after the final `/`; if empty use
`image.bin`; replace every character that is not alphanumeric, `.`, `_`
or `-` with `_`. -/
def specDeriveFilename (url : Str) : Str :=
  let u := strip_qf url
  let name := after_last_slash u
  safe_filename (if name = [] then lit "image.bin" else name)

/-! ## HTML extraction

Both spiders locate start-tag spans with the pattern
`<\s*TAG\b[^>]*>` (case-insensitive) and then look inside each span for
`ATTR\s*=\s*("([^"]*)"|'([^']*)'|([^\s>]+))`.  The patterns are embedded
as direct scanners.  Because `[^>]*` cannot cross a `>`, a tag span always
runs from its `<` to the first following `>`, in both regex dialects.  The
scanners use a fuel argument equal to the input length, which every step
strictly exceeds, so the fuel never runs out; this keeps them structurally
recursive and kernel-evaluable. -/

/-- A regex word character (`\w`), used for the `\b` boundary after the
tag name. -/
def isWordChar (c : Char) : Bool := c.isAlphanum || c = '_'

/-- Match the tag-opener pattern `<\s*TAG\b[^>]*>` at the head of `s`;
returns the length of the matched span. -/
def matchTagAt (tag : Str) (s : Str) : Option Nat :=
  match s with
  | '<' :: r1 =>
    let wsn := (r1.takeWhile isWs).length
    let r2 := r1.drop wsn
    if starts_with (to_lower r2) (to_lower tag) then
      let r3 := r2.drop tag.length
      match r3.head? with
      | some c0 =>
        if isWordChar c0 then none
        else
          let bodyn := (r3.takeWhile (fun d => decide (d ≠ '>'))).length
          if (r3.drop bodyn).head? = some '>' then
            some (1 + wsn + tag.length + bodyn + 1)
          else none
      | none => none
    else none
  | _ => none

/-- Leftmost-to-right scan for tag spans; on a match the scan resumes after
the span (as `sregex_iterator` / the `p = p + eo` loop in spider.c do). -/
def scanTagsAux (tag : Str) : Nat → Str → List Str
  | 0, _ => []
  | _, [] => []
  | fuel + 1, c :: rest =>
    match matchTagAt tag (c :: rest) with
    | some n => (c :: rest).take n :: scanTagsAux tag fuel ((c :: rest).drop n)
    | none => scanTagsAux tag fuel rest

/-- All tag spans of `tag` in `html`, in document order. -/
def scanTags (tag : Str) (html : Str) : List Str := scanTagsAux tag html.length html

/-- The quoted-value alternative `q([^q]*)q`: a `q`, the run of non-`q`
characters, a closing `q`.  Returns the captured value and the total
length consumed. -/
def valueAltQuoted (q : Char) (s : Str) : Option (Str × Nat) :=
  match s with
  | [] => none
  | c :: rest =>
    if c = q then
      if q ∈ rest then
        some (rest.takeWhile (fun d => decide (d ≠ q)),
          (rest.takeWhile (fun d => decide (d ≠ q))).length + 2)
      else none
    else none

/-- The unquoted-value alternative `[^\s>]+`. -/
def valueUnquoted (s : Str) : Option (Str × Nat) :=
  if s.takeWhile (fun c => !isWs c && decide (c ≠ '>')) = [] then none
  else
    some (s.takeWhile (fun c => !isWs c && decide (c ≠ '>')),
      (s.takeWhile (fun c => !isWs c && decide (c ≠ '>'))).length)

/-- The value alternation under ECMAScript (std::regex) semantics, as in
spider.cpp: alternatives are tried in order — double-quoted, then
single-quoted, then unquoted. -/
def valueCpp (s : Str) : Option (Str × Nat) :=
  match valueAltQuoted dq s with
  | some x => some x
  | none =>
    match valueAltQuoted sq s with
    | some x => some x
    | none => valueUnquoted s

/-- Pick the longer of two candidate matches, preferring the first
(earlier alternative) on ties — POSIX leftmost-longest disambiguation. -/
def longerOf (a b : Option (Str × Nat)) : Option (Str × Nat) :=
  match a, b with
  | some (v, n), some (w, m) => if n < m then some (w, m) else some (v, n)
  | some x, none => some x
  | none, b2 => b2

/-- The value alternation under POSIX (glibc regexec) semantics, as in
spider.c: the longest overall match wins; since all alternatives share the
same prefix, the longest value alternative wins. -/
def valueC (s : Str) : Option (Str × Nat) :=
  longerOf (longerOf (valueAltQuoted dq s) (valueAltQuoted sq s)) (valueUnquoted s)

/-- Match the shared `ATTR\s*=\s*` prefix of the attribute pattern at the
head of `s` (case-insensitive attribute name, optional whitespace around
`=`); returns the prefix length and the remaining value position. -/
def attrEqPre (attr : Str) (s : Str) : Option (Nat × Str) :=
  if starts_with (to_lower s) (to_lower attr) then
    let r1 := s.drop attr.length
    let w1 := (r1.takeWhile isWs).length
    match (r1.drop w1).head? with
    | some c0 =>
      if c0 = '=' then
        let r3 := (r1.drop w1).drop 1
        let w2 := (r3.takeWhile isWs).length
        some (attr.length + w1 + 1 + w2, r3.drop w2)
      else none
    | none => none
  else none

/-- Match `ATTR\s*=\s*VALUE` at the head of `s`, with the value alternation
supplied by `vf`; returns the captured value and the total match length. -/
def matchAttrGen (vf : Str → Option (Str × Nat)) (attr : Str) (s : Str) :
    Option (Str × Nat) :=
  match attrEqPre attr s with
  | some (pre, rv) =>
    match vf rv with
    | some (v, n) => some (v, pre + n)
    | none => none
  | none => none

/-- All attribute-pattern matches in document order (the
`sregex_iterator` loop of `extract_attr_urls` in spider.cpp): scan left to
right, resuming after each match. -/
def scanAttrsAux (attr : Str) : Nat → Str → List Str
  | 0, _ => []
  | _, [] => []
  | fuel + 1, c :: rest =>
    match matchAttrGen valueCpp attr (c :: rest) with
    | some (v, n) => v :: scanAttrsAux attr fuel ((c :: rest).drop n)
    | none => scanAttrsAux attr fuel rest

/-- Trim a captured value and discard it if empty — applied to each value
by both extractors before emitting it. -/
def trimNonempty (v : Str) : Option Str :=
  let v2 := trim v
  if v2 = [] then none else some v2

/-- `extract_attr_urls` from spider.cpp: every attribute-pattern match in
the input, trimmed, empty values discarded. -/
def extract_attr_urls (html : Str) (attrName : Str) : List Str :=
  (scanAttrsAux attrName html.length html).filterMap trimNonempty

/-- `extract_img_srcs` from spider.cpp: all `src` values of every
`img` tag span, in document order. -/
def extract_img_srcs (html : Str) : List Str :=
  ((scanTags (lit "img") html).map (fun tag => extract_attr_urls tag (lit "src"))).flatten

/-- `extract_a_hrefs` from spider.cpp: all `href` values of every
`a` tag span, in document order. -/
def extract_a_hrefs (html : Str) : List Str :=
  ((scanTags (lit "a") html).map (fun tag => extract_attr_urls tag (lit "href"))).flatten

/-- The first (POSIX leftmost-longest) attribute-pattern match in the
input — spider.c's single `regexec` call per tag span. -/
def firstAttrValueC (attr : Str) : Nat → Str → Option Str
  | 0, _ => none
  | _, [] => none
  | fuel + 1, c :: rest =>
    match matchAttrGen valueC attr (c :: rest) with
    | some (v, _) => some v
    | none => firstAttrValueC attr fuel rest

/-- `extract_tag_attrs` from spider.c: for each tag span, at most one value
— the first attribute-pattern match, trimmed, discarded if empty. -/
def extract_tag_attrs (html : Str) (tagname : Str) (attr : Str) : List Str :=
  (scanTags tagname html).filterMap
    (fun tag => (firstAttrValueC attr tag.length tag).bind trimNonempty)

/-! ## Well-formedness conditions under which the two regex dialects agree -/

/-- After a quoted value, a whitespace, `>`, or end of input must follow for
the unquoted alternative to be unable to outrun the quoted one. -/
def delimiterOk (s : Str) : Bool :=
  match s.head? with
  | none => true
  | some c => isWs c || decide (c = '>')

/-- Syntactic condition at a value position making ECMAScript
(first-alternative) and POSIX (longest-alternative) captures coincide:
a closed quoted value must be followed by a delimiter; anything else
already agrees. -/
def wellFormedValue (s : Str) : Bool :=
  match s with
  | [] => true
  | c :: rest =>
    if c = dq then
      if dq ∈ rest then
        delimiterOk ((rest.dropWhile (fun d => decide (d ≠ dq))).drop 1)
      else true
    else if c = sq then
      if sq ∈ rest then
        delimiterOk ((rest.dropWhile (fun d => decide (d ≠ sq))).drop 1)
      else true
    else true

/-- `wellFormedValue` lifted to an arbitrary position: if the position
starts an `ATTR\s*=\s*` prefix, its value position must be well-formed. -/
def wfAttrAt (attr : Str) (s : Str) : Bool :=
  match attrEqPre attr s with
  | some (_, rv) => wellFormedValue rv
  | none => true

/-- `wfAttrAt` at every nonempty suffix (every scan position). -/
def allSuffixesWF (attr : Str) : Str → Bool
  | [] => true
  | c :: rest => wfAttrAt attr (c :: rest) && allSuffixesWF attr rest

/-! ## Crawl traversal engine

The crawl is embedded with the network as an oracle: `fetch` maps a URL to
`some body` (HTTP 2xx) or `none` (fetch failure), and `dl` reports whether
an image download succeeded.  The state records the two dedup sets as
insertion-ordered lists plus two traces: `fetches`, one entry per
`http_get_text` call, and `okDownloads`, one entry per successful image
download. -/

/-- The spec's `CrawlState`: `VisitedPages`, `DownloadedImages`, and the
observable traces of the run. -/
structure CrawlState where
  visited : List Str
  downloaded : List Str
  fetches : List Str
  okDownloads : List Str
deriving DecidableEq, Repr

/-- The empty state at the start of a run. -/
def initState : CrawlState := ⟨[], [], [], []⟩

/-- The per-`href` gate of the link pass in `Spider::crawl`: join, reject
empty, re-parse, keep only a host equal (case-insensitively) to the base
host. -/
def linkTarget (base : UrlParts) (href : Str) : Option Str :=
  let nextUrl := join_url base href
  if nextUrl = [] then none
  else
    match parse_url nextUrl with
    | none => none
    | some np => if to_lower np.host = to_lower base.host then some nextUrl else none

/-- The links actually followed from a page, in document order. -/
def linkTargets (base : UrlParts) (hrefs : List Str) : List Str :=
  hrefs.filterMap (linkTarget base)

/-- The per-`src` gate of the image pass in `Spider::crawl`: join, reject
empty, keep only URLs passing `is_image_url`.  No host restriction. -/
def imageTarget (base : UrlParts) (src : Str) : Option Str :=
  let imgUrl := join_url base src
  if imgUrl = [] then none
  else if is_image_url imgUrl then some imgUrl else none

/-- The image URLs considered for download from a page, in document order. -/
def imageTargets (base : UrlParts) (srcs : List Str) : List Str :=
  srcs.filterMap (imageTarget base)

/-- One image: skip if already in `DownloadedImages`, otherwise insert it
(before the download attempt) and attempt the download. -/
def image_step (dl : Str → Bool) (st : CrawlState) (u : Str) : CrawlState :=
  if u ∈ st.downloaded then st
  else
    let st1 := { st with downloaded := st.downloaded ++ [u] }
    if dl u then { st1 with okDownloads := st1.okDownloads ++ [u] } else st1

/-- The image pass of `Spider::crawl` over a page's `src` values. -/
def imagePass (dl : Str → Bool) (base : UrlParts) (st : CrawlState) (srcs : List Str) :
    CrawlState :=
  (imageTargets base srcs).foldl (image_step dl) st

/-- One call of `Spider::crawl`, with the recursive link pass abstracted by
`recur` (`none` when recursion is disabled or the depth budget is 0):
reject empty url, parse (silent branch abort on failure), dedup check,
insert into `VisitedPages`, fetch, image pass, link pass. -/
def visit (fetch : Str → Option Str) (dl : Str → Bool)
    (recur : Option (CrawlState → Str → CrawlState)) (st : CrawlState) (url : Str) :
    CrawlState :=
  if url = [] then st
  else
    match parse_url url with
    | none => st
    | some base =>
      if url ∈ st.visited then st
      else
        let st1 := { st with visited := st.visited ++ [url] }
        let st2 := { st1 with fetches := st1.fetches ++ [url] }
        match fetch url with
        | none => st2
        | some html =>
          let st3 := imagePass dl base st2 (extract_img_srcs html)
          match recur with
          | none => st3
          | some f => (linkTargets base (extract_a_hrefs html)).foldl f st3

/-- `Spider::crawl` from spider.cpp: links are followed only when recursion
is enabled and `depth_left > 0`, each with `depth_left - 1`. -/
def crawl (fetch : Str → Option Str) (dl : Str → Bool) (recursive : Bool) :
    Nat → CrawlState → Str → CrawlState
  | 0, st, url => visit fetch dl none st url
  | d + 1, st, url =>
    visit fetch dl (if recursive then some (crawl fetch dl recursive d) else none) st url

/-- The process-exit summary printed by `main`: the sizes of
`visited_pages` and `downloaded_images`. -/
def summary (st : CrawlState) : Nat × Nat := (st.visited.length, st.downloaded.length)

/-! ## CLI -/

/-- `Options` from spider.cpp (`max_depth` is parsed from a digit string,
hence a natural number; it is `0` until `-l` sets it). -/
structure Options where
  recursive : Bool
  max_depth : Nat
  out_dir : Str
deriving DecidableEq, Repr

/-- The default option values of spider.cpp's `Options`. -/
def default_options : Options := ⟨false, 0, lit "./data"⟩

/-- Outcome of command-line parsing in `main`: run, print usage and exit 0,
or exit 1. -/
inductive CliResult where
  | run (opt : Options) (url : Str)
  | help
  | usageError
deriving DecidableEq, Repr

/-- `is_number` from spider.cpp: nonempty and all digits. -/
def is_number (s : Str) : Bool :=
  match s with
  | [] => false
  | _ => s.all Char.isDigit

/-- `std::stoi` on an all-digit string. -/
def str_to_nat (s : Str) : Nat :=
  s.foldl (fun acc c => acc * 10 + (c.toNat - '0'.toNat)) 0

/-- The argument loop of `main` in spider.cpp: `-r`, `-l N` (digits
required), `-p PATH`, `-h`/`--help`, and the last non-flag argument as the
URL; a missing URL is a usage error. -/
def parse_args_loop : List Str → Options → Str → CliResult
  | [], opt, url => if url = [] then .usageError else .run opt url
  | a :: rest, opt, url =>
    if a = lit "-r" then parse_args_loop rest { opt with recursive := true } url
    else if a = lit "-l" then
      match rest with
      | [] => .usageError
      | n :: rest2 =>
        if is_number n then
          parse_args_loop rest2 { opt with max_depth := str_to_nat n } url
        else .usageError
    else if a = lit "-p" then
      match rest with
      | [] => .usageError
      | p :: rest2 => parse_args_loop rest2 { opt with out_dir := p } url
    else if a = lit "-h" ∨ a = lit "--help" then .help
    else parse_args_loop rest opt a

/-- Command-line parsing from the default options. -/
def parse_args (args : List Str) : CliResult := parse_args_loop args default_options []

/-- The depth `main` passes to `Spider::crawl`: after
`if (opt.recursive && opt.max_depth == 0) opt.max_depth = 5;`, the crawl
depth is `opt.max_depth` when recursive, else `0`. -/
def effective_depth (opt : Options) : Nat :=
  let md := if opt.recursive && decide (opt.max_depth = 0) then 5 else opt.max_depth
  if opt.recursive then md else 0

/-- A whole run: `main`'s call `s.crawl(url, depth)` with the oracles. -/
def run_spider (fetch : Str → Option Str) (dl : Str → Bool) (opt : Options) (url : Str) :
    CrawlState :=
  crawl fetch dl opt.recursive (effective_depth opt) initState url

/-- Prefix the first segment of a segment list (helper for relating the
code's segment loop to the specification's split). -/
def prepend_first (tmp : Str) : List Str → List Str
  | [] => [tmp]
  | h :: t => (tmp ++ h) :: t

/-! # Lemmas -/

lemma to_lower_cons (c : Char) (t : Str) :
    to_lower (c :: t) = Char.toLower c :: to_lower t := rfl

lemma starts_with_cons (c : Char) (s : Str) (p : Char) (ps : Str) :
    starts_with (c :: s) (p :: ps) = (decide (c = p) && starts_with s ps) := rfl

lemma starts_with_nil (s : Str) : starts_with s [] = true := by
  cases s <;> rfl

lemma split_segs_append (s : Str) :
    ∀ tmp parts, split_segs s tmp parts = parts ++ split_segs s tmp [] := by
  induction s with
  | nil =>
    intro tmp parts
    simp only [split_segs]
    split <;> simp
  | cons c rest ih =>
    intro tmp parts
    simp only [split_segs]
    by_cases hc : c = '/'
    · simp only [if_pos hc]
      by_cases ht : tmp = []
      · simp only [if_pos ht, ih [] parts]
      · simp only [if_neg ht, ih [] (parts ++ [tmp]), ih [] ([] ++ [tmp])]
        simp [List.append_assoc]
    · simp only [if_neg hc, ih (tmp ++ [c]) parts]

lemma splitOnSlash_ne_nil (s : Str) : splitOnSlash s ≠ [] := by
  cases s with
  | nil => simp [splitOnSlash]
  | cons c rest =>
    simp only [splitOnSlash]
    split
    · simp
    · split <;> simp

lemma foldl_norm_prepend_nil (l : List Str) (a : List Str) :
    List.foldl norm_step a (prepend_first [] l) = List.foldl norm_step a l := by
  cases l with
  | nil => simp [prepend_first, norm_step]
  | cons h t => simp [prepend_first]

lemma foldl_split_segs (s : Str) :
    ∀ tmp acc, List.foldl norm_step acc (split_segs s tmp []) =
      List.foldl norm_step acc (prepend_first tmp (splitOnSlash s)) := by
  induction s with
  | nil =>
    intro tmp acc
    simp only [split_segs, splitOnSlash, prepend_first]
    by_cases ht : tmp = []
    · simp [ht, norm_step]
    · simp [ht]
  | cons c rest ih =>
    intro tmp acc
    by_cases hc : c = '/'
    · simp only [split_segs, if_pos hc, splitOnSlash, prepend_first]
      by_cases ht : tmp = []
      · simp only [if_pos ht, ih [] acc, foldl_norm_prepend_nil]
        subst ht
        simp [List.foldl_cons, norm_step]
      · simp only [if_neg ht, List.nil_append]
        rw [split_segs_append rest [] [tmp]]
        have hstep : List.foldl norm_step acc ([tmp] ++ split_segs rest [] []) =
            List.foldl norm_step (norm_step acc tmp) (split_segs rest [] []) := by
          simp [List.foldl_cons]
        rw [hstep, ih [] (norm_step acc tmp), foldl_norm_prepend_nil]
        simp [List.foldl_cons, List.append_nil]
    · simp only [split_segs, if_neg hc]
      rw [ih (tmp ++ [c]) acc]
      simp only [splitOnSlash, if_neg hc]
      cases hsos : splitOnSlash rest with
      | nil => exact absurd hsos (splitOnSlash_ne_nil rest)
      | cons seg segs =>
        simp [prepend_first, List.append_assoc]

lemma split_segs_norm (s : Str) (acc : List Str) :
    List.foldl norm_step acc (split_segs s [] []) =
      List.foldl norm_step acc (splitOnSlash s) := by
  rw [foldl_split_segs s [] acc, foldl_norm_prepend_nil]

/-- The run invariant of the traversal engine: the fetch trace has no
duplicates, every fetched URL is in `VisitedPages`, both dedup lists are
duplicate-free, and every successful download was recorded in
`DownloadedImages`. -/
def Inv (st : CrawlState) : Prop :=
  st.fetches.Nodup ∧ (∀ u ∈ st.fetches, u ∈ st.visited) ∧ st.visited.Nodup ∧
    st.downloaded.Nodup ∧ (∀ u ∈ st.okDownloads, u ∈ st.downloaded)

/-- The link-pass recursion argument preserves the invariant. -/
def RecurOK : Option (CrawlState → Str → CrawlState) → Prop
  | none => True
  | some f => ∀ st u, Inv st → Inv (f st u)

lemma nodup_append_singleton {l : List Str} {a : Str} (h : l.Nodup) (ha : a ∉ l) :
    (l ++ [a]).Nodup := by
  rw [List.nodup_append]
  refine ⟨h, List.nodup_singleton a, ?_⟩
  intro x hx hmem
  rw [List.mem_singleton] at hmem
  exact ha (hmem ▸ hx)

lemma foldl_preserve {α : Type} (P : CrawlState → Prop) (f : CrawlState → α → CrawlState)
    (hf : ∀ st a, P st → P (f st a)) :
    ∀ (l : List α) (st : CrawlState), P st → P (l.foldl f st) := by
  intro l
  induction l with
  | nil => intro st h; exact h
  | cons a t ih => intro st h; exact ih _ (hf st a h)

lemma image_step_inv (dl : Str → Bool) (st : CrawlState) (u : Str) (h : Inv st) :
    Inv (image_step dl st u) := by
  obtain ⟨h1, h2, h3, h4, h5⟩ := h
  unfold image_step
  by_cases hd : u ∈ st.downloaded
  · rw [if_pos hd]; exact ⟨h1, h2, h3, h4, h5⟩
  · rw [if_neg hd]
    have hnd : (st.downloaded ++ [u]).Nodup := nodup_append_singleton h4 hd
    have hok : ∀ v ∈ st.okDownloads, v ∈ st.downloaded ++ [u] := by
      intro v hv
      exact List.mem_append_left _ (h5 v hv)
    by_cases hdl : dl u = true
    · rw [if_pos hdl]
      refine ⟨h1, h2, h3, hnd, ?_⟩
      intro v hv
      rcases List.mem_append.mp hv with hv | hv
      · exact hok v hv
      · exact List.mem_append_right _ hv
    · rw [if_neg hdl]
      exact ⟨h1, h2, h3, hnd, hok⟩

lemma imagePass_inv (dl : Str → Bool) (base : UrlParts) (st : CrawlState)
    (srcs : List Str) (h : Inv st) : Inv (imagePass dl base st srcs) :=
  foldl_preserve Inv (image_step dl) (image_step_inv dl) (imageTargets base srcs) st h

lemma visit_inv (fetch : Str → Option Str) (dl : Str → Bool)
    (recur : Option (CrawlState → Str → CrawlState)) (hrec : RecurOK recur)
    (st : CrawlState) (url : Str) (h : Inv st) : Inv (visit fetch dl recur st url) := by
  obtain ⟨h1, h2, h3, h4, h5⟩ := h
  unfold visit
  split
  · exact ⟨h1, h2, h3, h4, h5⟩
  · cases hp : parse_url url with
    | none => exact ⟨h1, h2, h3, h4, h5⟩
    | some base =>
      dsimp only
      by_cases hvis : url ∈ st.visited
      · rw [if_pos hvis]; exact ⟨h1, h2, h3, h4, h5⟩
      · rw [if_neg hvis]
        have hfet : url ∉ st.fetches := fun hf => hvis (h2 url hf)
        have h2' :
            Inv ⟨st.visited ++ [url], st.downloaded, st.fetches ++ [url], st.okDownloads⟩ := by
          refine ⟨nodup_append_singleton h1 hfet, ?_, nodup_append_singleton h3 hvis, h4, h5⟩
          intro u hu
          rcases List.mem_append.mp hu with hu | hu
          · exact List.mem_append_left _ (h2 u hu)
          · exact List.mem_append_right _ hu
        cases hf : fetch url with
        | none => exact h2'
        | some html =>
          have h3' := imagePass_inv dl base _ (extract_img_srcs html) h2'
          cases recur with
          | none => exact h3'
          | some f =>
            exact foldl_preserve Inv f (fun st2 a hst2 => hrec st2 a hst2) _ _ h3'

lemma crawl_inv (fetch : Str → Option Str) (dl : Str → Bool) (recursive : Bool) :
    ∀ (depth : Nat) (st : CrawlState) (url : Str), Inv st →
      Inv (crawl fetch dl recursive depth st url) := by
  intro depth
  induction depth with
  | zero => intro st url h; exact visit_inv fetch dl none trivial st url h
  | succ d ih =>
    intro st url h
    unfold crawl
    refine visit_inv fetch dl _ ?_ st url h
    by_cases hr : recursive
    · rw [if_pos hr]
      intro st2 u h2
      exact ih st2 u h2
    · rw [if_neg hr]
      trivial

lemma Inv_initState : Inv initState := by
  refine ⟨List.nodup_nil, ?_, List.nodup_nil, List.nodup_nil, ?_⟩ <;> intro u hu <;>
    exact absurd hu (List.not_mem_nil u)

/-! # Claims -/

/-- Claim C1, counterexample: the claim says an already-absolute href is
returned with its scheme lower-cased; on `HTTP://x.com/a` the code returns
the href verbatim with the scheme's upper case preserved, not
`http://x.com/a`. -/
theorem C1_counterexample_scheme_case_kept :
    join_url ⟨lit "http", lit "b.com", lit "/"⟩ (lit "HTTP://x.com/a")
      = lit "HTTP://x.com/a" ∧
    join_url ⟨lit "http", lit "b.com", lit "/"⟩ (lit "HTTP://x.com/a")
      ≠ lit "http://x.com/a" := by
  constructor
  · decide
  · decide

/-- Claim C1 (amended): for every base and every href whose trimmed form
starts case-insensitively with `http://` or `https://`, `resolve`
(`join_url`) is idempotent in the strict sense that it returns the trimmed
href verbatim — in particular unchanged, but with the scheme's original
case preserved rather than lower-cased. -/
theorem C1_absolute_href_returned_verbatim (base : UrlParts) (href : Str)
    (h : starts_with (to_lower (trim href)) (lit "http://") = true ∨
         starts_with (to_lower (trim href)) (lit "https://") = true) :
    join_url base href = trim href := by
  unfold join_url normalize_url
  cases hh : trim href with
  | nil => rw [hh] at h; exact absurd h (by decide)
  | cons c t =>
    rw [hh] at h
    have hc : Char.toLower c = 'h' := by
      rcases h with h | h
      · rw [to_lower_cons, show lit "http://" = 'h' :: lit "ttp://" from rfl,
          starts_with_cons, Bool.and_eq_true, decide_eq_true_iff] at h
        exact h.1
      · rw [to_lower_cons, show lit "https://" = 'h' :: lit "ttps://" from rfl,
          starts_with_cons, Bool.and_eq_true, decide_eq_true_iff] at h
        exact h.1
    have hj : starts_with (to_lower (c :: t)) (lit "javascript:") = false := by
      rw [to_lower_cons, show lit "javascript:" = 'j' :: lit "avascript:" from rfl,
        starts_with_cons, hc]
      simp
    have hm : starts_with (to_lower (c :: t)) (lit "mailto:") = false := by
      rw [to_lower_cons, show lit "mailto:" = 'm' :: lit "ailto:" from rfl,
        starts_with_cons, hc]
      simp
    have hhash : ¬ c = '#' := by
      intro hcc
      rw [hcc] at hc
      exact absurd hc (by decide)
    have hor : (starts_with (to_lower (c :: t)) (lit "http://")
        || starts_with (to_lower (c :: t)) (lit "https://")) = true := by
      rcases h with h | h <;> simp [h]
    simp [hj, hm, hhash, hor]

/-- Claim C1, witness for the amended theorem at
href `HTTP://x.com/a` against base `http://b.com/`. -/
theorem C1_witness :
    join_url ⟨lit "http", lit "b.com", lit "/"⟩ (lit "HTTP://x.com/a")
      = trim (lit "HTTP://x.com/a") :=
  C1_absolute_href_returned_verbatim ⟨lit "http", lit "b.com", lit "/"⟩
    (lit "HTTP://x.com/a") (Or.inl (by decide))

/-- Claim C5: for a genuinely relative href (trimmed nonempty; not a
fragment, `javascript:`/`mailto:` reference, absolute URL, or absolute
path), `resolve` concatenates the base directory with the href and
normalizes exactly as the specification describes (`specNormalize`: split
on `/`, drop empty and `.` segments, `..` pops clamped at the root, rejoin
with a leading `/`, empty result becoming `/`).  Moreover the spec's
concrete example holds, and an empty normalization result is `/`. -/
theorem C5_relative_resolution :
    (∀ (base : UrlParts) (href : Str),
      trim href ≠ [] →
      (trim href).head? ≠ some '#' →
      starts_with (to_lower (trim href)) (lit "javascript:") = false →
      starts_with (to_lower (trim href)) (lit "mailto:") = false →
      starts_with (to_lower (trim href)) (lit "http://") = false →
      starts_with (to_lower (trim href)) (lit "https://") = false →
      starts_with (trim href) (lit "/") = false →
      join_url base href =
        base.scheme ++ lit "://" ++ base.host ++
          specNormalize (url_base_dir base ++ trim href)) ∧
    join_url ⟨lit "http", lit "example.com", lit "/a/b/index.html"⟩ (lit "../c.png")
      = lit "http://example.com/a/c.png" ∧
    specNormalize (lit "/..") = lit "/" := by
  refine ⟨?_, by decide, by decide⟩
  intro base href hne hhash hjs hmt hhttp hhttps hslash
  unfold join_url normalize_url
  cases hh : trim href with
  | nil => exact absurd hh hne
  | cons c t =>
    rw [hh] at hhash hjs hmt hhttp hhttps hslash
    have hcslash : decide (c = '/') = false := by
      rw [show lit "/" = ['/'] from rfl, starts_with_cons, starts_with_nil] at hslash
      simpa using hslash
    have hss : starts_with (c :: t) (lit "//") = false := by
      rw [show lit "//" = '/' :: lit "/" from rfl, starts_with_cons, hcslash]
      rfl
    have hslash2 : starts_with (c :: t) (lit "/") = false := by
      rw [show lit "/" = ['/'] from rfl, starts_with_cons, starts_with_nil, hcslash]
      rfl
    simp only [hjs, hmt, hhttp, hhttps, hss, hslash2, Bool.or_self, Bool.false_or,
      Bool.or_false, if_neg (by simp : ¬((c : Char) :: t = [])), if_neg hhash]
    simp only [Bool.false_eq_true, if_false]
    rw [← hh]
    unfold specNormalize
    rw [split_segs_norm]

/-- Claim C5, witness: the relative-resolution equation instantiated at
base `http://x.com/d/e` and href `a/./b/../c.png`. -/
theorem C5_witness :
    join_url ⟨lit "http", lit "x.com", lit "/d/e"⟩ (lit "a/./b/../c.png")
      = lit "http" ++ lit "://" ++ lit "x.com" ++
          specNormalize (url_base_dir ⟨lit "http", lit "x.com", lit "/d/e"⟩ ++
            trim (lit "a/./b/../c.png")) :=
  C5_relative_resolution.1 ⟨lit "http", lit "x.com", lit "/d/e"⟩ (lit "a/./b/../c.png")
    (by decide) (by decide) (by decide) (by decide) (by decide) (by decide) (by decide)

/-- Claim C6: for every base and every href that trims to the empty string,
or starts with `#`, or starts case-insensitively with `javascript:` or
`mailto:`, `resolve` (`join_url`) returns the skip marker (the empty
string): the reference contributes no URL. -/
theorem C6_non_navigable_skipped (base : UrlParts) (href : Str)
    (h : trim href = [] ∨ (trim href).head? = some '#' ∨
         starts_with (to_lower (trim href)) (lit "javascript:") = true ∨
         starts_with (to_lower (trim href)) (lit "mailto:") = true) :
    join_url base href = [] := by
  unfold join_url normalize_url
  cases hh : trim href with
  | nil => simp
  | cons c t =>
    rw [hh] at h
    rcases h with h | h | h | h
    · exact absurd h (by simp)
    · by_cases hjm : (starts_with (to_lower (c :: t)) (lit "javascript:")
        || starts_with (to_lower (c :: t)) (lit "mailto:")) = true <;>
        simp [hjm, h]
    · simp [h]
    · simp [h]

/-- Claim C6, witness: `#frag`, `javascript:alert(1)` and `mailto:a@b.com`
all resolve to the skip marker. -/
theorem C6_witness :
    join_url ⟨lit "http", lit "b.com", lit "/"⟩ (lit "#frag") = [] ∧
    join_url ⟨lit "http", lit "b.com", lit "/"⟩ (lit "javascript:alert(1)") = [] ∧
    join_url ⟨lit "http", lit "b.com", lit "/"⟩ (lit "mailto:a@b.com") = [] :=
  ⟨C6_non_navigable_skipped _ _ (Or.inr (Or.inl (by decide))),
   C6_non_navigable_skipped _ _ (Or.inr (Or.inr (Or.inl (by decide)))),
   C6_non_navigable_skipped _ _ (Or.inr (Or.inr (Or.inr (by decide))))⟩

/-- Claim C8: for every URL whose `?`/`#`-stripped form contains a `/`
(every parsed URL does), `filename_from_url` agrees with the
specification's `deriveFilename`: strip the `?`/`#` suffix, take the text
after the final `/`, substitute `image.bin` when that text is empty, and
replace every character that is not alphanumeric, `.`, `_` or `-` with
`_`; the spec's concrete example also holds, and an input with no `/` at
all falls back to `image.bin`. -/
theorem C8_derive_filename :
    (∀ url : Str, ('/' : Char) ∈ strip_qf url →
      filename_from_url url = specDeriveFilename url) ∧
    filename_from_url (lit "http://x.com/a/b/pic name!.png?x=1") = lit "pic_name_.png" ∧
    (∀ url : Str, ('/' : Char) ∉ strip_qf url → filename_from_url url = lit "image.bin") := by
  refine ⟨?_, by decide, ?_⟩
  · intro url hs
    unfold filename_from_url specDeriveFilename
    simp only [if_pos hs]
    by_cases hn : after_last_slash (strip_qf url) = []
    · simp only [if_pos hn]
      decide
    · simp only [if_neg hn]
  · intro url hs
    unfold filename_from_url
    simp only [if_neg hs]

/-- Claim C8, witness: the agreement instantiated at the spec's example
URL. -/
theorem C8_witness :
    filename_from_url (lit "http://x.com/a/b/pic name!.png?x=1")
      = specDeriveFilename (lit "http://x.com/a/b/pic name!.png?x=1") :=
  C8_derive_filename.1 (lit "http://x.com/a/b/pic name!.png?x=1") (by decide)

/-- Claim C3: for every fetch/download oracle, recursion setting, depth and
seed, the crawl's fetch-call trace contains no URL twice, and every fetched
URL is in `VisitedPages` of the final state — the insertion into
`VisitedPages` happens in the same step, before the fetch, so there is at
most one visit per distinct URL per run. -/
theorem C3_no_url_fetched_twice (fetch : Str → Option Str) (dl : Str → Bool)
    (recursive : Bool) (depth : Nat) (url : Str) :
    (crawl fetch dl recursive depth initState url).fetches.Nodup ∧
    ∀ u ∈ (crawl fetch dl recursive depth initState url).fetches,
      u ∈ (crawl fetch dl recursive depth initState url).visited := by
  have h := crawl_inv fetch dl recursive depth initState url Inv_initState
  exact ⟨h.1, h.2.1⟩

/-- Claim C4: every URL that survives the link-pass gate (`linkTargets`,
the exact filter the crawl folds its recursive call over, at every depth)
parses to a host equal — case-insensitively and exactly, no subdomain
matching — to the referring page's host; an off-host link is therefore
never followed. -/
theorem C4_offhost_links_never_followed (base : UrlParts) (hrefs : List Str) (u : Str)
    (hu : u ∈ linkTargets base hrefs) :
    ∃ p, parse_url u = some p ∧ to_lower p.host = to_lower base.host := by
  unfold linkTargets at hu
  rw [List.mem_filterMap] at hu
  obtain ⟨href, _, hl⟩ := hu
  unfold linkTarget at hl
  by_cases h1 : join_url base href = []
  · rw [if_pos h1] at hl
    exact absurd hl (by simp)
  · rw [if_neg h1] at hl
    cases hp : parse_url (join_url base href) with
    | none => rw [hp] at hl; exact absurd hl (by simp)
    | some np =>
      rw [hp] at hl
      dsimp only at hl
      by_cases hh : to_lower np.host = to_lower base.host
      · rw [if_pos hh] at hl
        have hu2 : join_url base href = u := by
          injection hl
        rw [← hu2]
        exact ⟨np, hp, hh⟩
      · rw [if_neg hh] at hl
        exact absurd hl (by simp)

/-- Claim C4, witness: the link `/a` from page `http://x.com/` survives the
gate and its resolved host equals the page's host. -/
theorem C4_witness :
    lit "http://x.com/a" ∈ linkTargets ⟨lit "http", lit "x.com", lit "/"⟩ [lit "/a"] ∧
    ∃ p, parse_url (lit "http://x.com/a") = some p ∧
      to_lower p.host = to_lower (lit "x.com") :=
  ⟨by decide,
   C4_offhost_links_never_followed ⟨lit "http", lit "x.com", lit "/"⟩ [lit "/a"]
     (lit "http://x.com/a") (by decide)⟩

lemma imageTarget_eq_some (base : UrlParts) (src u : Str) :
    imageTarget base src = some u ↔
      join_url base src = u ∧ u ≠ [] ∧ is_image_url u = true := by
  unfold imageTarget
  by_cases h1 : join_url base src = []
  · rw [if_pos h1]
    constructor
    · intro h; exact absurd h (by simp)
    · rintro ⟨hj, hne, _⟩
      exact absurd (hj ▸ h1) hne
  · rw [if_neg h1]
    by_cases h2 : is_image_url (join_url base src) = true
    · rw [if_pos h2]
      constructor
      · intro h
        have hu : join_url base src = u := by injection h
        exact ⟨hu, hu ▸ h1, hu ▸ h2⟩
      · rintro ⟨hj, _, _⟩
        rw [hj]
    · rw [if_neg h2]
      constructor
      · intro h; exact absurd h (by simp)
      · rintro ⟨hj, _, hi⟩
        exact absurd (hj ▸ hi) h2

lemma image_foldl_mem (dl : Str → Bool) :
    ∀ (targets : List Str) (st : CrawlState) (u : Str),
      u ∈ targets ∨ u ∈ st.downloaded →
        u ∈ (targets.foldl (image_step dl) st).downloaded := by
  intro targets
  induction targets with
  | nil =>
    intro st u h
    rcases h with h | h
    · exact absurd h (List.not_mem_nil u)
    · exact h
  | cons t ts ih =>
    intro st u h
    rw [List.foldl_cons]
    apply ih
    have hmono : ∀ v ∈ st.downloaded, v ∈ (image_step dl st t).downloaded := by
      intro v hv
      unfold image_step
      split
      · exact hv
      · split <;> exact List.mem_append_left _ hv
    rcases h with h | h
    · rcases List.mem_cons.mp h with h | h
      · right
        subst h
        unfold image_step
        by_cases hd : u ∈ st.downloaded
        · rw [if_pos hd]; exact hd
        · rw [if_neg hd]
          split <;> exact List.mem_append_right _ (List.mem_singleton.mpr rfl)
      · left; exact h
    · right; exact hmono u h

/-- Claim C7: the image pass applies no host restriction.  A URL is an
image target of a page exactly when some `src` resolves to it, it is
non-skipped and passes `isImage` — no condition on its host — and every
image target ends up in `DownloadedImages` after the image pass, whether
or not its host matches the page's. -/
theorem C7_images_not_host_restricted :
    (∀ (base : UrlParts) (srcs : List Str) (u : Str),
      u ∈ imageTargets base srcs ↔
        ∃ src ∈ srcs, join_url base src = u ∧ u ≠ [] ∧ is_image_url u = true) ∧
    (∀ (dl : Str → Bool) (base : UrlParts) (st : CrawlState) (srcs : List Str) (u : Str),
      u ∈ imageTargets base srcs → u ∈ (imagePass dl base st srcs).downloaded) := by
  constructor
  · intro base srcs u
    unfold imageTargets
    rw [List.mem_filterMap]
    constructor
    · rintro ⟨src, hs, hsome⟩
      exact ⟨src, hs, (imageTarget_eq_some base src u).mp hsome⟩
    · rintro ⟨src, hs, hcond⟩
      exact ⟨src, hs, (imageTarget_eq_some base src u).mpr hcond⟩
  · intro dl base st srcs u hu
    unfold imagePass
    exact image_foldl_mem dl (imageTargets base srcs) st u (Or.inl hu)

/-- Claim C7, witness: a CDN image on a different host than the page
(`cdn.y.com` vs `x.com`) is an image target and is downloaded. -/
theorem C7_witness :
    lit "http://cdn.y.com/p.png"
      ∈ imageTargets ⟨lit "http", lit "x.com", lit "/"⟩ [lit "http://cdn.y.com/p.png"] ∧
    parse_url (lit "http://cdn.y.com/p.png")
      = some ⟨lit "http", lit "cdn.y.com", lit "/p.png"⟩ ∧
    to_lower (lit "cdn.y.com") ≠ to_lower (lit "x.com") ∧
    lit "http://cdn.y.com/p.png"
      ∈ (imagePass (fun _ => true) ⟨lit "http", lit "x.com", lit "/"⟩ initState
          [lit "http://cdn.y.com/p.png"]).downloaded :=
  ⟨by decide, by decide, by decide,
   C7_images_not_host_restricted.2 (fun _ => true) ⟨lit "http", lit "x.com", lit "/"⟩
     initState [lit "http://cdn.y.com/p.png"] (lit "http://cdn.y.com/p.png") (by decide)⟩

/-- Claim C9, counterexample: with a fetch oracle serving one page with one
image and a download oracle that always fails, the summary's second count
is 1 (the size of `DownloadedImages`, inserted before the attempt) while
zero images were actually downloaded — so the summary does not report the
count of images downloaded. -/
theorem C9_counterexample_failed_download_counted :
    (summary (run_spider
      (fun u => if u = lit "http://x.com/" then some (lit "<img src=a.png>") else none)
      (fun _ => false) ⟨false, 0, lit "./data"⟩ (lit "http://x.com/"))).2 = 1 ∧
    (run_spider
      (fun u => if u = lit "http://x.com/" then some (lit "<img src=a.png>") else none)
      (fun _ => false) ⟨false, 0, lit "./data"⟩ (lit "http://x.com/")).okDownloads.length
      = 0 := by
  constructor
  · decide
  · decide

/-- Claim C9 (amended): the process-exit summary reports the sizes of
`VisitedPages` and `DownloadedImages`.  Both are duplicate-free, so the
first count is the number of distinct pages visited; the second is the
number of distinct image URLs for which a download was *attempted* — it
includes failed downloads (every successful download is in
`DownloadedImages`, but not conversely). -/
theorem C9_summary_counts (fetch : Str → Option Str) (dl : Str → Bool)
    (opt : Options) (url : Str) :
    summary (run_spider fetch dl opt url)
      = ((run_spider fetch dl opt url).visited.length,
         (run_spider fetch dl opt url).downloaded.length) ∧
    (run_spider fetch dl opt url).visited.Nodup ∧
    (run_spider fetch dl opt url).downloaded.Nodup ∧
    ∀ u ∈ (run_spider fetch dl opt url).okDownloads,
      u ∈ (run_spider fetch dl opt url).downloaded := by
  have h := crawl_inv fetch dl opt.recursive (effective_depth opt) initState url Inv_initState
  exact ⟨rfl, h.2.2.1, h.2.2.2.1, h.2.2.2.2⟩

/-- Claim C2, counterexample: `-r -l 0` yields an effective crawl depth of
5, not 0 — the implementation cannot distinguish an explicit `-l 0` from an
absent `-l`, because `0` is its unset sentinel. -/
theorem C2_counterexample_explicit_zero_depth :
    parse_args [lit "-r", lit "-l", lit "0", lit "http://x.com/"]
      = CliResult.run ⟨true, 0, lit "./data"⟩ (lit "http://x.com/") ∧
    effective_depth ⟨true, 0, lit "./data"⟩ = 5 ∧
    effective_depth ⟨true, 0, lit "./data"⟩ ≠ 0 := by
  refine ⟨by decide, by decide, by decide⟩

/-- Claim C2 (amended): with `-r -l N` the crawl depth equals `N` for every
positive `N`; for `N = 0`, and when `-l` is absent, the depth is 5. -/
theorem C2_depth_from_cli (n url : Str)
    (hn : is_number n = true)
    (hurl : url ≠ lit "-r" ∧ url ≠ lit "-l" ∧ url ≠ lit "-p" ∧ url ≠ lit "-h" ∧
      url ≠ lit "--help" ∧ url ≠ []) :
    parse_args [lit "-r", lit "-l", n, url]
      = CliResult.run ⟨true, str_to_nat n, lit "./data"⟩ url ∧
    (str_to_nat n ≠ 0 →
      effective_depth ⟨true, str_to_nat n, lit "./data"⟩ = str_to_nat n) ∧
    (str_to_nat n = 0 → effective_depth ⟨true, str_to_nat n, lit "./data"⟩ = 5) ∧
    parse_args [lit "-r", url] = CliResult.run ⟨true, 0, lit "./data"⟩ url ∧
    effective_depth ⟨true, 0, lit "./data"⟩ = 5 := by
  obtain ⟨hu1, hu2, hu3, hu4, hu5, hu6⟩ := hurl
  refine ⟨?_, ?_, ?_, ?_, by decide⟩
  · simp +decide [parse_args, parse_args_loop, default_options, hn, hu1, hu2, hu3, hu4,
      hu5, hu6]
  · intro hz
    unfold effective_depth
    simp [hz]
  · intro hz
    unfold effective_depth
    simp [hz]
  · simp +decide [parse_args, parse_args_loop, default_options, hu1, hu2, hu3, hu4,
      hu5, hu6]

/-- Claim C2, witness: `-r -l 3` gives crawl depth 3. -/
theorem C2_witness :
    parse_args [lit "-r", lit "-l", lit "3", lit "http://x.com/"]
      = CliResult.run ⟨true, str_to_nat (lit "3"), lit "./data"⟩ (lit "http://x.com/") ∧
    effective_depth ⟨true, str_to_nat (lit "3"), lit "./data"⟩ = str_to_nat (lit "3") := by
  have h := C2_depth_from_cli (lit "3") (lit "http://x.com/") (by decide)
    ⟨by decide, by decide, by decide, by decide, by decide, by decide⟩
  exact ⟨h.1, h.2.1 (by decide)⟩


lemma length_takeWhile_append (p : Char → Bool) (l1 l2 : Str) :
    (List.takeWhile p (l1 ++ l2)).length ≤ l1.length + (List.takeWhile p l2).length := by
  induction l1 with
  | nil => simp
  | cons c t ih =>
    rw [List.cons_append, List.takeWhile_cons]
    cases hp : p c
    · simp
    · simp [hp]
      omega

lemma dropWhile_eq_char_cons (q : Char) (l : Str) (h : q ∈ l) :
    ∃ t, l.dropWhile (fun d => decide (d ≠ q)) = q :: t := by
  induction l with
  | nil => exact absurd h (List.not_mem_nil q)
  | cons c r ih =>
    by_cases hc : c = q
    · subst hc
      exact ⟨r, by rw [List.dropWhile_cons, if_neg (by simp)]⟩
    · rw [List.dropWhile_cons, if_pos (by simp [hc])]
      apply ih
      rcases List.mem_cons.mp h with h | h
      · exact absurd h.symm hc
      · exact h

lemma takeWhile_nil_of_delimiterOk (t : Str) (h : delimiterOk t = true) :
    List.takeWhile (fun c => !isWs c && decide (c ≠ '>')) t = [] := by
  cases t with
  | nil => rfl
  | cons c r =>
    unfold delimiterOk at h
    simp only [List.head?_cons] at h
    rw [List.takeWhile_cons, if_neg]
    intro hp
    rw [Bool.and_eq_true, Bool.not_eq_eq_eq_not, Bool.not_true, decide_eq_true_iff] at hp
    rcases Bool.or_eq_true_iff.mp h with h | h
    · rw [hp.1] at h; exact Bool.false_ne_true h
    · exact hp.2 (of_decide_eq_true h)

lemma unquoted_le_quoted (q : Char) (rest : Str)
    (hq : (!isWs q && decide (q ≠ '>')) = true)
    (hmem : q ∈ rest)
    (hdel : delimiterOk ((rest.dropWhile (fun d => decide (d ≠ q))).drop 1) = true) :
    (List.takeWhile (fun c => !isWs c && decide (c ≠ '>')) (q :: rest)).length ≤
      (rest.takeWhile (fun d => decide (d ≠ q))).length + 2 := by
  obtain ⟨t, hdw⟩ := dropWhile_eq_char_cons q rest hmem
  have hsplit : rest = rest.takeWhile (fun d => decide (d ≠ q)) ++ q :: t := by
    conv_lhs => rw [← List.takeWhile_append_dropWhile (fun d => decide (d ≠ q)) rest]
    rw [hdw]
  have hdel2 : delimiterOk t = true := by
    rw [hdw] at hdel
    simpa using hdel
  rw [List.takeWhile_cons, if_pos hq, List.length_cons]
  have h1 : (List.takeWhile (fun c => !isWs c && decide (c ≠ '>')) rest).length ≤
      (rest.takeWhile (fun d => decide (d ≠ q))).length +
        (List.takeWhile (fun c => !isWs c && decide (c ≠ '>')) (q :: t)).length := by
    conv_lhs => rw [hsplit]
    exact length_takeWhile_append _ _ _
  rw [List.takeWhile_cons, if_pos hq, takeWhile_nil_of_delimiterOk t hdel2] at h1
  simp only [List.length_cons, List.length_nil] at h1
  omega

lemma longerOf_some_none (x : Str × Nat) : longerOf (some x) none = some x := rfl

lemma longerOf_none (b : Option (Str × Nat)) : longerOf none b = b := rfl

lemma longerOf_some_some (v : Str) (n : Nat) (w : Str) (m : Nat) :
    longerOf (some (v, n)) (some (w, m)) = if n < m then some (w, m) else some (v, n) := rfl

lemma valueAltQuoted_self_mem (q : Char) (rest : Str) (hmem : q ∈ rest) :
    valueAltQuoted q (q :: rest) =
      some (rest.takeWhile (fun d => decide (d ≠ q)),
        (rest.takeWhile (fun d => decide (d ≠ q))).length + 2) := by
  simp [valueAltQuoted, hmem]

lemma valueAltQuoted_self_not_mem (q : Char) (rest : Str) (hmem : q ∉ rest) :
    valueAltQuoted q (q :: rest) = none := by
  simp [valueAltQuoted, hmem]

lemma valueAltQuoted_ne (q c : Char) (rest : Str) (hne : c ≠ q) :
    valueAltQuoted q (c :: rest) = none := by
  simp [valueAltQuoted, hne]

lemma valueUnquoted_quote_head (q : Char) (rest : Str)
    (hq : (!isWs q && decide (q ≠ '>')) = true) :
    valueUnquoted (q :: rest) =
      some (List.takeWhile (fun c => !isWs c && decide (c ≠ '>')) (q :: rest),
        (List.takeWhile (fun c => !isWs c && decide (c ≠ '>')) (q :: rest)).length) := by
  unfold valueUnquoted
  rw [if_neg]
  rw [List.takeWhile_cons, if_pos hq]
  simp

lemma valueC_eq_cpp (s : Str) (h : wellFormedValue s = true) : valueC s = valueCpp s := by
  cases s with
  | nil => rfl
  | cons c rest =>
    by_cases hdq : c = dq
    · subst hdq
      by_cases hmem : dq ∈ rest
      · have hdel :
            delimiterOk ((rest.dropWhile (fun d => decide (d ≠ dq))).drop 1) = true := by
          unfold wellFormedValue at h
          simpa [hmem] using h
        have hle := unquoted_le_quoted dq rest (by decide) hmem hdel
        have hcpp : valueCpp (dq :: rest) =
            some (rest.takeWhile (fun d => decide (d ≠ dq)),
              (rest.takeWhile (fun d => decide (d ≠ dq))).length + 2) := by
          unfold valueCpp
          rw [valueAltQuoted_self_mem dq rest hmem]
        unfold valueC
        rw [hcpp, valueAltQuoted_self_mem dq rest hmem,
          valueAltQuoted_ne sq dq rest (by decide), longerOf_some_none,
          valueUnquoted_quote_head dq rest (by decide), longerOf_some_some]
        split
        · exfalso; omega
        · rfl
      · unfold valueC valueCpp
        rw [valueAltQuoted_self_not_mem dq rest hmem,
          valueAltQuoted_ne sq dq rest (by decide), longerOf_none, longerOf_none]
    · by_cases hsq : c = sq
      · subst hsq
        by_cases hmem : sq ∈ rest
        · have hdel :
              delimiterOk ((rest.dropWhile (fun d => decide (d ≠ sq))).drop 1) = true := by
            unfold wellFormedValue at h
            simpa [hmem, show ¬(sq = dq) by decide] using h
          have hle := unquoted_le_quoted sq rest (by decide) hmem hdel
          have hcpp : valueCpp (sq :: rest) =
              some (rest.takeWhile (fun d => decide (d ≠ sq)),
                (rest.takeWhile (fun d => decide (d ≠ sq))).length + 2) := by
            unfold valueCpp
            rw [valueAltQuoted_ne dq sq rest (by decide),
              valueAltQuoted_self_mem sq rest hmem]
          unfold valueC
          rw [hcpp, valueAltQuoted_ne dq sq rest (by decide),
            valueAltQuoted_self_mem sq rest hmem, longerOf_none,
            valueUnquoted_quote_head sq rest (by decide), longerOf_some_some]
          split
          · exfalso; omega
          · rfl
        · unfold valueC valueCpp
          rw [valueAltQuoted_ne dq sq rest (by decide),
            valueAltQuoted_self_not_mem sq rest hmem, longerOf_none, longerOf_none]
      · unfold valueC valueCpp
        rw [valueAltQuoted_ne dq c rest hdq, valueAltQuoted_ne sq c rest hsq,
          longerOf_none, longerOf_none]


lemma matchAttrGen_eq (attr s : Str) (h : wfAttrAt attr s = true) :
    matchAttrGen valueC attr s = matchAttrGen valueCpp attr s := by
  unfold matchAttrGen
  unfold wfAttrAt at h
  cases hap : attrEqPre attr s with
  | none => rfl
  | some pr =>
    obtain ⟨pre, rv⟩ := pr
    rw [hap] at h
    simp only at h
    simp only [valueC_eq_cpp rv h]

lemma allSuffixesWF_head (attr : Str) (c : Char) (rest : Str)
    (h : allSuffixesWF attr (c :: rest) = true) :
    wfAttrAt attr (c :: rest) = true ∧ allSuffixesWF attr rest = true := by
  have h2 := h
  unfold allSuffixesWF at h2
  exact Bool.and_eq_true_iff.mp h2

lemma firstAttrC_eq_head (attr : Str) :
    ∀ (fuel : Nat) (s : Str), allSuffixesWF attr s = true →
      firstAttrValueC attr fuel s = (scanAttrsAux attr fuel s).head? := by
  intro fuel
  induction fuel with
  | zero => intro s h; cases s <;> rfl
  | succ f ih =>
    intro s h
    cases s with
    | nil => rfl
    | cons c rest =>
      obtain ⟨hw, ht⟩ := allSuffixesWF_head attr c rest h
      unfold firstAttrValueC scanAttrsAux
      rw [matchAttrGen_eq attr (c :: rest) hw]
      cases hm : matchAttrGen valueCpp attr (c :: rest) with
      | none => exact ih rest ht
      | some vn =>
        obtain ⟨v, n⟩ := vn
        rfl

lemma per_tag_eq (attr tag : Str)
    (h1 : (scanAttrsAux attr tag.length tag).length ≤ 1)
    (h2 : allSuffixesWF attr tag = true) :
    extract_attr_urls tag attr =
      ((firstAttrValueC attr tag.length tag).bind trimNonempty).toList := by
  unfold extract_attr_urls
  rw [firstAttrC_eq_head attr tag.length tag h2]
  cases hs : scanAttrsAux attr tag.length tag with
  | nil => rfl
  | cons v vs =>
    rw [hs] at h1
    have hvs : vs = [] := by
      cases vs with
      | nil => rfl
      | cons w ws => simp at h1
    subst hvs
    rw [List.filterMap_cons]
    have hh : ([v].head?.bind trimNonempty).toList = (trimNonempty v).toList := rfl
    rw [hh]
    cases trimNonempty v with
    | none => rfl
    | some w => rfl

lemma flatten_toList_eq_filterMap (f : Str → Option Str) (g : Str → List Str) :
    ∀ L : List Str, (∀ t ∈ L, g t = (f t).toList) →
      (L.map g).flatten = L.filterMap f := by
  intro L
  induction L with
  | nil => intro _; rfl
  | cons t ts ih =>
    intro h
    rw [List.map_cons, List.flatten_cons, h t (List.mem_cons_self t ts),
      List.filterMap_cons, ih (fun u hu => h u (List.mem_cons_of_mem t hu))]
    cases f t with
    | none => rfl
    | some w => rfl

/-- Claim C10, counterexample: on a single `img` tag carrying two `src`
attributes the C++ extractor returns both values while the C extractor
returns only the first; the two extractions differ. -/
theorem C10_counterexample_two_srcs_one_tag :
    extract_tag_attrs (lit "<img src=a.png src=b.png>") (lit "img") (lit "src")
      ≠ extract_img_srcs (lit "<img src=a.png src=b.png>") ∧
    extract_img_srcs (lit "<img src=a.png src=b.png>") = [lit "a.png", lit "b.png"] ∧
    extract_tag_attrs (lit "<img src=a.png src=b.png>") (lit "img") (lit "src")
      = [lit "a.png"] := by
  refine ⟨by decide, by decide, by decide⟩

/-- Claim C10 (amended): the two spiders' `img`/`src` extractors agree on
every HTML input in which each `img` tag span contains at most one
occurrence of the `src` attribute pattern and every attribute value is
well-formed (closed quoted values followed by a delimiter, so the POSIX
longest-match and ECMAScript ordered-alternation captures coincide).  In
general the C extractor emits at most the first `src` value per tag while
the C++ extractor emits all of them. -/
theorem C10_extractors_agree_on_single_src (html : Str)
    (h : ∀ t ∈ scanTags (lit "img") html,
      (scanAttrsAux (lit "src") t.length t).length ≤ 1 ∧
        allSuffixesWF (lit "src") t = true) :
    extract_tag_attrs html (lit "img") (lit "src") = extract_img_srcs html := by
  unfold extract_tag_attrs extract_img_srcs
  rw [flatten_toList_eq_filterMap
    (fun tag => (firstAttrValueC (lit "src") tag.length tag).bind trimNonempty)
    (fun tag => extract_attr_urls tag (lit "src"))
    (scanTags (lit "img") html)
    (fun t ht => per_tag_eq (lit "src") t (h t ht).1 (h t ht).2)]

/-- Claim C10, witness for the amended theorem: two `img` tags with one
`src` each — the extractions agree. -/
theorem C10_witness :
    extract_tag_attrs (lit "<img src=a.png><p><img src = b.png ></p>") (lit "img")
        (lit "src")
      = extract_img_srcs (lit "<img src=a.png><p><img src = b.png ></p>") :=
  C10_extractors_agree_on_single_src (lit "<img src=a.png><p><img src = b.png ></p>")
    (by decide)

end Arachnida
